import Mathlib

/-!
Verification of the depgraph package (src/depgraph/depgraph.go): a dependency
graph with cycle-checked edge insertion and a postorder dependency-closure
traversal.

Modelling notes.  Go nodes are heap-allocated records reached through
pointers; we model the heap explicitly as a list of node records, and a
pointer as an index into that list.  The registry map is an association list
whose lookup returns the most recently inserted binding, matching Go map
overwrite semantics (the map is never iterated by the source).  The two
recursive traversals of the source have no structural termination measure
(they follow heap pointers), so they take an explicit fuel argument counting
the allowed recursion depth; the public entry points pass heap size + 1,
which is proved sufficient on the (acyclic) states the API can produce.
The checked slice of isRecursivelyDependentOnWithCache is passed by value in
Go and the append on line 133 happens after the recursive calls and never
escapes the frame, so callees always receive the caller's unmodified slice;
the embedding threads the parameter unchanged, exactly as the running code
does.
-/

namespace Depgraph

/-- A node of the dependency graph: package name, backing file path, and the
ordered dependency edges, stored as heap indices (Go pointers). -/
structure Node where
  pkg : String
  path : String
  deps : List Nat
deriving DecidableEq, Repr

/-- The heap of allocated nodes; an index is a pointer. -/
abbrev Heap := List Node

/-- Package name stored at pointer i (unreachable default for dangling i). -/
def pkgOf (heap : Heap) (i : Nat) : String :=
  match heap.get? i with
  | some n => n.pkg
  | none => ""

/-- File path stored at pointer i. -/
def pathOf (heap : Heap) (i : Nat) : String :=
  match heap.get? i with
  | some n => n.path
  | none => ""

/-- Dependency list stored at pointer i. -/
def depsOf (heap : Heap) (i : Nat) : List Nat :=
  match heap.get? i with
  | some n => n.deps
  | none => []

/-- contains (depgraph.go:92-100): is a node with the path of newNode already
among nodes?  Equality is by Path, as in the source. -/
def contains (heap : Heap) (nodes : List Nat) (newNode : Nat) : Bool :=
  nodes.any fun node => pathOf heap node == pathOf heap newNode

/-- containsPkg (depgraph.go:102-110): is a node named pkg among nodes? -/
def containsPkg (nodes : List Node) (pkg : String) : Bool :=
  nodes.any fun node => node.pkg == pkg

/-- isRecursivelyDependentOnWithCache (depgraph.go:117-135), as a method of
one node i.  The dependency loop with its early return on the first true is
List.any, which short-circuits the same way.  The fuel argument counts the
allowed recursion depth: a call with fuel 0 models a stack that the real
recursion would have overflowed; it never happens at the proved fuel. -/
def isRecursivelyDependentOnWithCache (heap : Heap) (pkg : String) :
    Nat → List Node → Nat → Bool
  | 0, _, _ => false
  | fuel + 1, checked, i =>
    match heap.get? i with
    | none => false
    | some n =>
      if pkg == n.pkg then true
      else if containsPkg checked pkg then false
      else n.deps.any fun e =>
        isRecursivelyDependentOnWithCache heap pkg fuel checked e

/-- isRecursivelyDependentOn (depgraph.go:113-115): the cycle check run by
AddDependency, started with an empty checked slice. -/
def isRecursivelyDependentOn (heap : Heap) (i : Nat) (pkg : String) : Bool :=
  isRecursivelyDependentOnWithCache heap pkg (heap.length + 1) [] i

/-- The dependency loop of the trace-instrumented cycle check: stops at the
first dependency that answers true, as the source loop does, and
concatenates the visit records of the dependencies it did run. -/
def isRecTraceLoop (step : Nat → Bool × List Nat) : List Nat → Bool × List Nat
  | [] => (false, [])
  | e :: es =>
    let c := step e
    if c.1 then c
    else
      let s := isRecTraceLoop step es
      (s.1, c.2 ++ s.2)

/-- Instrumented copy of isRecursivelyDependentOnWithCache that additionally
records, in order, the pointer of every node the check enters (one entry per
Go activation of depgraph.go:117), with the same short-circuit behaviour.
Used to measure how often the check visits a node. -/
def isRecursivelyDependentOnTrace (heap : Heap) (pkg : String) :
    Nat → List Node → Nat → Bool × List Nat
  | 0, _, _ => (false, [])
  | fuel + 1, checked, i =>
    match heap.get? i with
    | none => (false, [i])
    | some n =>
      if pkg == n.pkg then (true, [i])
      else if containsPkg checked pkg then (false, [i])
      else
        let r := isRecTraceLoop
          (isRecursivelyDependentOnTrace heap pkg fuel checked) n.deps
        (r.1, i :: r.2)

/-- The inner copy loop of getDependencies (depgraph.go:74-79): append every
element of eDeps not yet path-present in the evolving accumulator. -/
def copyNew (heap : Heap) (deps : List Nat) : List Nat → List Nat
  | [] => deps
  | d :: es =>
    copyNew heap (if contains heap deps d then deps else deps ++ [d]) es

/-- The dependency loop of getDependencies (depgraph.go:72-80): for each edge
e the source recurses on the singleton list [e] (the next parameter is the
traversal one stack level deeper) and copies the new entries into the
accumulator. -/
def depLoop (heap : Heap) (next : List Nat → List Nat → List Nat) :
    List Nat → List Nat → List Nat
  | [], deps => deps
  | e :: es, deps => depLoop heap next es (copyNew heap deps (next [e] deps))

/-- The outer loop of getDependencies (depgraph.go:67-82): a node already
path-present in the accumulator is skipped; otherwise its dependency list is
expanded through the deeper traversal and the node itself is appended last. -/
def goNodes (heap : Heap) (deeper : List Nat → List Nat → List Nat) :
    List Nat → List Nat → List Nat
  | [], deps => deps
  | node :: rest, deps =>
    if contains heap deps node then goNodes heap deeper rest deps
    else
      goNodes heap deeper rest
        (depLoop heap deeper (depsOf heap node) deps ++ [node])

/-- getDependencies (depgraph.go:66-84), with fuel counting the allowed
recursion depth (the recursive call of depgraph.go:73 runs one level
deeper). -/
def getDependenciesAux (heap : Heap) : Nat → List Nat → List Nat → List Nat
  | 0, _, deps => deps
  | fuel + 1, nodes, deps =>
    goNodes heap (getDependenciesAux heap fuel) nodes deps

/-- DependencyGraph (depgraph.go:22-24): the registry map plus the node heap
that holds what Go allocates behind the map's pointers. -/
structure DependencyGraph where
  nodes : List (String × Nat)
  heap : Heap
deriving DecidableEq, Repr

/-- New (depgraph.go:26-28). -/
def New : DependencyGraph := ⟨[], []⟩

/-- Go map lookup g.Nodes[pkg]: the most recent binding wins. -/
def lookupId (g : DependencyGraph) (pkg : String) : Option Nat :=
  g.nodes.lookup pkg

/-- AddFile (depgraph.go:30-32): allocate a fresh edge-free node and bind the
name to it, shadowing any previous binding; the old cell stays on the heap
and existing edges keep pointing at it. -/
def AddFile (g : DependencyGraph) (pkg path : String) : DependencyGraph :=
  { nodes := (pkg, g.heap.length) :: g.nodes
    heap := g.heap ++ [⟨pkg, path, []⟩] }

/-- The successful PushBack of AddDependency (depgraph.go:49): append toId at
the end of the dependency sequence of fromId. -/
def pushBackDep (heap : Heap) (fromId toId : Nat) : Heap :=
  match heap.get? fromId with
  | none => heap
  | some n => heap.set fromId { n with deps := n.deps ++ [toId] }

/-- AddDependency (depgraph.go:34-51), as a state transformer returning the
new graph and the optional error message, with the source's exact strings. -/
def AddDependency (g : DependencyGraph) (fr toPkg : String) :
    DependencyGraph × Option String :=
  match lookupId g fr with
  | none => (g, some ("Package not found: " ++ fr))
  | some fromId =>
    match lookupId g toPkg with
    | none => (g, some ("Package not found: " ++ toPkg))
    | some toId =>
      if isRecursivelyDependentOn g.heap toId fr then
        (g, some ("Circular dependency between " ++ fr ++ " and " ++ toPkg))
      else
        ({ g with heap := pushBackDep g.heap fromId toId }, none)

/-- GetDependencies (depgraph.go:62-64): run the traversal with an empty
accumulator.  Entry points are node pointers, as in the source. -/
def GetDependencies (g : DependencyGraph) (nodes : List Nat) : List Nat :=
  getDependenciesAux g.heap (g.heap.length + 1) nodes []

/-- GetDependenciesOfPackage (depgraph.go:53-60): nil for an unknown name. -/
def GetDependenciesOfPackage (g : DependencyGraph) (pkg : String) : List Nat :=
  match lookupId g pkg with
  | none => []
  | some i => GetDependencies g [i]

/-! ## Semantic notions: edges, reachability, acyclicity, well-formedness -/

/-- The pointer-level edge relation of a heap: node i holds an edge to j. -/
def EdgeRel (heap : Heap) (i j : Nat) : Prop :=
  i < heap.length ∧ j ∈ depsOf heap i

/-- j lies in the reflexive-transitive dependency closure of i. -/
abbrev Reach (heap : Heap) : Nat → Nat → Prop :=
  Relation.ReflTransGen (EdgeRel heap)

/-- No node lies on a nonempty pointer cycle. -/
def Acyclic (heap : Heap) : Prop :=
  ∀ i, ¬ Relation.TransGen (EdgeRel heap) i i

/-- Every stored edge points into the heap. -/
def WFHeap (heap : Heap) : Prop :=
  ∀ n ∈ heap, ∀ d ∈ n.deps, d < heap.length

/-- Every registry binding points into the heap, at a node carrying the bound
name (AddFile always stores the key as the node's pkg). -/
def WFMap (g : DependencyGraph) : Prop :=
  ∀ pkg i, lookupId g pkg = some i → i < g.heap.length ∧ pkgOf g.heap i = pkg

/-- The inductive invariant of API-produced graphs. -/
def Invariant (g : DependencyGraph) : Prop :=
  WFHeap g.heap ∧ WFMap g ∧ Acyclic g.heap

/-- Some node named pkg lies in the closure of i: the notion the source's
cycle check decides (package identity is by name). -/
def reachesPackage (heap : Heap) (i : Nat) (pkg : String) : Prop :=
  ∃ j, Reach heap i j ∧ pkgOf heap j = pkg

/-- Graph states produced by some sequence of API calls.  Failed
AddDependency calls are included (they return the graph they were given). -/
inductive Reachable : DependencyGraph → Prop
  | init : Reachable New
  | addFile {g} (pkg path : String) : Reachable g → Reachable (AddFile g pkg path)
  | addDep {g g' : DependencyGraph} (fr toPkg : String) (e : Option String) :
      Reachable g → AddDependency g fr toPkg = (g', e) → Reachable g'

/-- Bounded heap i k: node i is a live pointer and every pointer chain from i
has fewer than k edges; k bounds the stack depth a traversal entered at i can
need. -/
inductive Bounded (heap : Heap) : Nat → Nat → Prop
  | mk {i k} : i < heap.length → (∀ d ∈ depsOf heap i, Bounded heap d k) →
      Bounded heap i (k + 1)

theorem Bounded.lt {heap i k} (h : Bounded heap i k) : i < heap.length := by
  cases h with
  | mk h1 _ => exact h1

theorem Bounded.pos {heap i k} (h : Bounded heap i k) : 0 < k := by
  cases h with
  | mk _ _ => exact Nat.succ_pos _

theorem Bounded.mono {heap i k} (h : Bounded heap i k) :
    ∀ k', k ≤ k' → Bounded heap i k' := by
  induction h with
  | mk h1 _ ih =>
    intro k' hk
    match k', hk with
    | k' + 1, hk =>
      exact Bounded.mk h1 fun d hd => ih d hd k' (Nat.le_of_succ_le_succ hk)

theorem depsOf_sub {heap : Heap} (hwf : WFHeap heap) (i : Nat) :
    ∀ d ∈ depsOf heap i, d < heap.length := by
  intro d hd
  unfold depsOf at hd
  rcases hget : heap.get? i with _ | n
  · rw [hget] at hd; cases hd
  · rw [hget] at hd
    exact hwf n (List.get?_mem hget) d hd

theorem EdgeRel.tgt_lt {heap : Heap} (hwf : WFHeap heap) {i j : Nat}
    (h : EdgeRel heap i j) : j < heap.length :=
  depsOf_sub hwf i j h.2

/-- A list of n distinct naturals below n contains every natural below n. -/
theorem mem_of_nodup_card {l : List Nat} {n : Nat} (hnd : l.Nodup)
    (hlt : ∀ x ∈ l, x < n) (hlen : l.length = n) : ∀ y, y < n → y ∈ l := by
  have h1 : l.toFinset ⊆ Finset.range n := by
    intro x hx
    exact Finset.mem_range.2 (hlt x (List.mem_toFinset.1 hx))
  have h2 : l.toFinset.card = n := by
    rw [List.toFinset_card_of_nodup hnd, hlen]
  have h3 : l.toFinset = Finset.range n :=
    Finset.eq_of_subset_of_card_le h1 (by rw [h2, Finset.card_range])
  intro y hy
  have : y ∈ l.toFinset := by
    rw [h3]; exact Finset.mem_range.2 hy
  exact List.mem_toFinset.1 this

/-- A nodup list of naturals below n has length at most n. -/
theorem nodup_length_le {l : List Nat} {n : Nat} (hnd : l.Nodup)
    (hlt : ∀ x ∈ l, x < n) : l.length ≤ n := by
  have h1 : l.toFinset ⊆ Finset.range n := by
    intro x hx
    exact Finset.mem_range.2 (hlt x (List.mem_toFinset.1 hx))
  have := Finset.card_le_card h1
  rw [List.toFinset_card_of_nodup hnd, Finset.card_range] at this
  exact this

theorem boundedAux {heap : Heap} (hwf : WFHeap heap) (hac : Acyclic heap) :
    ∀ (m : Nat) (seen : List Nat) (i : Nat), seen.Nodup →
      (∀ x ∈ seen, x < heap.length) →
      (∀ x ∈ seen, Relation.TransGen (EdgeRel heap) x i) →
      i < heap.length → i ∉ seen → heap.length = seen.length + m →
      Bounded heap i (m + 1) := by
  intro m
  induction m with
  | zero =>
    intro seen i hnd hlt htg hi hni hlen
    exact absurd (mem_of_nodup_card hnd hlt (by omega) i hi) hni
  | succ m ih =>
    intro seen i hnd hlt htg hi hni hlen
    refine Bounded.mk hi fun d hd => ?_
    have hedge : EdgeRel heap i d := ⟨hi, hd⟩
    have hd_lt : d < heap.length := depsOf_sub hwf i d hd
    have hd_notin : d ∉ i :: seen := by
      intro hmem
      rcases List.mem_cons.1 hmem with h | h
      · subst h
        exact hac d (Relation.TransGen.single hedge)
      · exact hac d ((htg d h).tail hedge)
    refine ih (i :: seen) d (List.nodup_cons.2 ⟨hni, hnd⟩) ?_ ?_ hd_lt hd_notin ?_
    · intro x hx
      rcases List.mem_cons.1 hx with h | h
      · subst h; exact hi
      · exact hlt x h
    · intro x hx
      rcases List.mem_cons.1 hx with h | h
      · subst h; exact Relation.TransGen.single hedge
      · exact (htg x h).tail hedge
    · simp; omega

/-- On an acyclic well-formed heap, heap size + 1 bounds every node's
traversal depth: the fuel the API entry points pass is sufficient. -/
theorem boundedOfAcyclic {heap : Heap} (hwf : WFHeap heap) (hac : Acyclic heap)
    {i : Nat} (hi : i < heap.length) : Bounded heap i (heap.length + 1) := by
  have := boundedAux hwf hac heap.length [] i List.nodup_nil
    (by intro x hx; cases hx) (by intro x hx; cases hx) hi
    (by intro hx; cases hx) (by simp)
  exact this

/-! ## Soundness and completeness of the cycle check -/

theorem isRec_sound {heap : Heap} {pkg : String} :
    ∀ (fuel : Nat) (checked : List Node) (i : Nat),
      isRecursivelyDependentOnWithCache heap pkg fuel checked i = true →
      reachesPackage heap i pkg := by
  intro fuel
  induction fuel with
  | zero =>
    intro checked i h
    simp [isRecursivelyDependentOnWithCache] at h
  | succ fuel ih =>
    intro checked i h
    rw [isRecursivelyDependentOnWithCache] at h
    rcases hget : heap.get? i with _ | n
    · rw [hget] at h; cases h
    · rw [hget] at h
      have h1 : (if (pkg == n.pkg) = true then true
          else if containsPkg checked pkg = true then false
          else n.deps.any fun e =>
            isRecursivelyDependentOnWithCache heap pkg fuel checked e) =
          true := h
      have hlt : i < heap.length := List.get?_eq_some.1 hget |>.1
      by_cases hpkg : (pkg == n.pkg) = true
      · refine ⟨i, Relation.ReflTransGen.refl, ?_⟩
        unfold pkgOf
        rw [hget]
        exact (eq_of_beq hpkg).symm
      · rw [if_neg hpkg] at h1
        by_cases hchk : (containsPkg checked pkg) = true
        · rw [if_pos hchk] at h1; cases h1
        · rw [if_neg hchk] at h1
          rcases List.any_eq_true.1 h1 with ⟨d, hd, htrue⟩
          rcases ih checked d htrue with ⟨j, hre, hp⟩
          have hedge : EdgeRel heap i d := ⟨hlt, by
            unfold depsOf; rw [hget]; exact hd⟩
          exact ⟨j, Relation.ReflTransGen.head hedge hre, hp⟩

theorem isRec_complete {heap : Heap} {pkg : String} :
    ∀ {k i : Nat}, Bounded heap i k →
      ∀ j, Reach heap i j → pkgOf heap j = pkg →
      ∀ (fuel : Nat), k ≤ fuel →
      isRecursivelyDependentOnWithCache heap pkg fuel [] i = true := by
  intro k i hb
  induction hb with
  | @mk i k hlt hdeps ih =>
    intro j hre hp fuel hfuel
    obtain ⟨f, rfl⟩ : ∃ f, fuel = f + 1 := ⟨fuel - 1, by omega⟩
    rw [isRecursivelyDependentOnWithCache]
    set n := heap.get ⟨i, hlt⟩ with hn
    have hget : heap.get? i = some n := List.get?_eq_get hlt
    rw [hget]
    show (if (pkg == n.pkg) = true then true
        else if containsPkg [] pkg = true then false
        else n.deps.any fun e =>
          isRecursivelyDependentOnWithCache heap pkg f [] e) = true
    rcases hre.cases_head with heq | ⟨d, hedge, hre'⟩
    · subst heq
      have hpe : pkgOf heap i = n.pkg := by
        unfold pkgOf; rw [hget]
      have hbeq : (pkg == n.pkg) = true := by
        rw [← hp, hpe]; exact beq_self_eq_true _
      rw [if_pos hbeq]
    · by_cases hpkg : (pkg == n.pkg) = true
      · rw [if_pos hpkg]
      · rw [if_neg hpkg]
        have hchk : (containsPkg [] pkg) = false := by simp [containsPkg]
        rw [hchk]
        simp only [Bool.false_eq_true, if_false]
        have hdm : d ∈ depsOf heap i := hedge.2
        have hdm' : d ∈ n.deps := by
          unfold depsOf at hdm; rw [hget] at hdm; exact hdm
        exact List.any_eq_true.2
          ⟨d, hdm', ih d hdm j hre' hp f (Nat.le_of_succ_le_succ hfuel)⟩

/-- The cycle check decides name-level reachability on the states the API can
produce: it returns true iff some node named pkg lies in i's closure. -/
theorem isRec_iff {heap : Heap} {pkg : String} {i : Nat} (hwf : WFHeap heap)
    (hac : Acyclic heap) (hi : i < heap.length) :
    isRecursivelyDependentOn heap i pkg = true ↔ reachesPackage heap i pkg := by
  constructor
  · intro h
    exact isRec_sound (heap.length + 1) [] i h
  · rintro ⟨j, hre, hp⟩
    exact isRec_complete (boundedOfAcyclic hwf hac hi) j hre hp
      (heap.length + 1) le_rfl

/-! ## Preservation of the invariant along API calls -/

theorem transGen_insert_after {α : Type} {r r' : α → α → Prop} {u v : α}
    (hsub : ∀ a b, r' a b → r a b ∨ (a = u ∧ b = v)) :
    ∀ {x y}, Relation.TransGen r' x y →
      Relation.TransGen r x y ∨ Relation.ReflTransGen r v y := by
  intro x y h
  induction h with
  | single hstep =>
    rcases hsub _ _ hstep with h1 | ⟨rfl, rfl⟩
    · exact Or.inl (Relation.TransGen.single h1)
    · exact Or.inr Relation.ReflTransGen.refl
  | tail _ hzy ih =>
    rcases hsub _ _ hzy with h1 | ⟨rfl, rfl⟩
    · rcases ih with h2 | h2
      · exact Or.inl (h2.tail h1)
      · exact Or.inr (h2.tail h1)
    · exact Or.inr Relation.ReflTransGen.refl

theorem transGen_insert_before {α : Type} {r r' : α → α → Prop} {u v : α}
    (hsub : ∀ a b, r' a b → r a b ∨ (a = u ∧ b = v)) :
    ∀ {x y}, Relation.TransGen r' x y →
      Relation.TransGen r x y ∨ Relation.ReflTransGen r x u := by
  intro x y h
  induction h using Relation.TransGen.head_induction_on with
  | base hstep =>
    rcases hsub _ _ hstep with h1 | ⟨rfl, rfl⟩
    · exact Or.inl (Relation.TransGen.single h1)
    · exact Or.inr Relation.ReflTransGen.refl
  | ih hstep _ ih =>
    rcases hsub _ _ hstep with h1 | ⟨rfl, rfl⟩
    · rcases ih with h2 | h2
      · exact Or.inl (h2.head h1)
      · exact Or.inr (h2.head h1)
    · exact Or.inr Relation.ReflTransGen.refl

/-- Adding one edge u → v to an acyclic edge set keeps it acyclic as long as
v does not already reach u. -/
theorem acyclic_insert {heap heap' : Heap} {fid tid : Nat}
    (hE : ∀ i j, EdgeRel heap' i j ↔ EdgeRel heap i j ∨ (i = fid ∧ j = tid))
    (hac : Acyclic heap) (hnr : ¬ Reach heap tid fid) : Acyclic heap' := by
  intro a ha
  have hsub : ∀ x y, EdgeRel heap' x y →
      EdgeRel heap x y ∨ (x = fid ∧ y = tid) := fun x y h => (hE x y).1 h
  rcases transGen_insert_after hsub ha with h1 | h1
  · exact hac a h1
  rcases transGen_insert_before hsub ha with h2 | h2
  · exact hac a h2
  · exact hnr (h1.trans h2)

theorem length_pushBackDep (heap : Heap) (fid tid : Nat) :
    (pushBackDep heap fid tid).length = heap.length := by
  unfold pushBackDep
  rcases heap.get? fid with _ | n
  · rfl
  · exact List.length_set ..

theorem pkgOf_pushBackDep (heap : Heap) (fid tid : Nat) (j : Nat) :
    pkgOf (pushBackDep heap fid tid) j = pkgOf heap j := by
  unfold pushBackDep
  rcases hget : heap.get? fid with _ | n
  · rfl
  · unfold pkgOf
    by_cases hj : fid = j
    · subst hj
      rw [List.get?_set_eq_of_lt _ (List.get?_eq_some.1 hget).1, hget]
    · rw [List.get?_set_ne _ _ hj]

theorem pathOf_pushBackDep (heap : Heap) (fid tid : Nat) (j : Nat) :
    pathOf (pushBackDep heap fid tid) j = pathOf heap j := by
  unfold pushBackDep
  rcases hget : heap.get? fid with _ | n
  · rfl
  · unfold pathOf
    by_cases hj : fid = j
    · subst hj
      rw [List.get?_set_eq_of_lt _ (List.get?_eq_some.1 hget).1, hget]
    · rw [List.get?_set_ne _ _ hj]

theorem depsOf_pushBackDep_same {heap : Heap} {fid : Nat} {n : Node}
    (hget : heap.get? fid = some n) (tid : Nat) :
    depsOf (pushBackDep heap fid tid) fid = n.deps ++ [tid] := by
  unfold pushBackDep
  rw [hget]
  unfold depsOf
  rw [List.get?_set_eq_of_lt _ (List.get?_eq_some.1 hget).1]

theorem depsOf_pushBackDep_other {heap : Heap} {fid j : Nat} (hj : fid ≠ j)
    (tid : Nat) : depsOf (pushBackDep heap fid tid) j = depsOf heap j := by
  unfold pushBackDep
  rcases hget : heap.get? fid with _ | n
  · rfl
  · unfold depsOf
    rw [List.get?_set_ne _ _ hj]

theorem edgeRel_pushBackDep {heap : Heap} {fid : Nat} {n : Node}
    (hget : heap.get? fid = some n) (tid : Nat) : ∀ i j,
    EdgeRel (pushBackDep heap fid tid) i j ↔
      EdgeRel heap i j ∨ (i = fid ∧ j = tid) := by
  intro i j
  have hlen := length_pushBackDep heap fid tid
  have hdeps_f : depsOf heap fid = n.deps := by
    unfold depsOf; rw [hget]
  constructor
  · rintro ⟨hi, hj⟩
    rw [hlen] at hi
    by_cases hf : fid = i
    · subst hf
      rw [depsOf_pushBackDep_same hget] at hj
      rcases List.mem_append.1 hj with h | h
      · exact Or.inl ⟨hi, by rw [hdeps_f]; exact h⟩
      · exact Or.inr ⟨rfl, List.mem_singleton.1 h⟩
    · rw [depsOf_pushBackDep_other hf] at hj
      exact Or.inl ⟨hi, hj⟩
  · rintro (⟨hi, hj⟩ | ⟨rfl, rfl⟩)
    · refine ⟨by rw [hlen]; exact hi, ?_⟩
      by_cases hf : fid = i
      · subst hf
        rw [depsOf_pushBackDep_same hget, hdeps_f] at *
        exact List.mem_append.2 (Or.inl hj)
      · rw [depsOf_pushBackDep_other hf]
        exact hj
    · refine ⟨by rw [hlen]; exact (List.get?_eq_some.1 hget).1, ?_⟩
      rw [depsOf_pushBackDep_same hget]
      exact List.mem_append.2 (Or.inr (List.mem_singleton.2 rfl))

theorem pkgOf_append_lt {heap : Heap} {i : Nat} (hi : i < heap.length)
    (nd : Node) : pkgOf (heap ++ [nd]) i = pkgOf heap i := by
  unfold pkgOf
  rw [List.get?_append hi]

theorem depsOf_append_lt {heap : Heap} {i : Nat} (hi : i < heap.length)
    (nd : Node) : depsOf (heap ++ [nd]) i = depsOf heap i := by
  unfold depsOf
  rw [List.get?_append hi]

theorem edgeRel_append_empty {heap : Heap} {nd : Node} (hnd : nd.deps = []) :
    ∀ i j, EdgeRel (heap ++ [nd]) i j ↔ EdgeRel heap i j := by
  intro i j
  constructor
  · rintro ⟨hi, hj⟩
    rw [List.length_append, List.length_singleton] at hi
    by_cases hlt : i < heap.length
    · rw [depsOf_append_lt hlt] at hj
      exact ⟨hlt, hj⟩
    · have : i = heap.length := by omega
      subst this
      unfold depsOf at hj
      rw [List.get?_concat_length] at hj
      have hj' : j ∈ nd.deps := hj
      rw [hnd] at hj'
      cases hj'
  · rintro ⟨hi, hj⟩
    refine ⟨by rw [List.length_append]; omega, ?_⟩
    rw [depsOf_append_lt hi]
    exact hj

theorem invariant_new : Invariant New := by
  refine ⟨?_, ?_, ?_⟩
  · intro n hn; cases hn
  · intro pkg i h
    simp [lookupId, New, List.lookup] at h
  · intro i h
    cases h with
    | single h1 => exact absurd h1.1 (by simp [New])
    | tail _ h1 => exact absurd h1.1 (by simp [New])

theorem lookup_addFile (g : DependencyGraph) (pkg path k : String) :
    lookupId (AddFile g pkg path) k =
      if k == pkg then some g.heap.length else lookupId g k := by
  unfold lookupId AddFile
  by_cases h : k == pkg
  · simp only [List.lookup, h, if_pos]
  · simp only [List.lookup, h, if_neg]
    simp at h ⊢

theorem invariant_addFile {g : DependencyGraph} (hg : Invariant g)
    (pkg path : String) : Invariant (AddFile g pkg path) := by
  obtain ⟨hwf, hmap, hac⟩ := hg
  have hlen : (AddFile g pkg path).heap.length = g.heap.length + 1 := by
    unfold AddFile
    simp
  refine ⟨?_, ?_, ?_⟩
  · intro n hn d hd
    rw [hlen]
    unfold AddFile at hn
    rcases List.mem_append.1 hn with h | h
    · exact Nat.lt_succ_of_lt (hwf n h d hd)
    · rcases List.mem_singleton.1 h with rfl
      cases hd
  · intro k i hk
    rw [lookup_addFile] at hk
    by_cases hkp : k == pkg
    · rw [if_pos hkp] at hk
      rcases Option.some.inj hk with rfl
      have hkp' : k = pkg := eq_of_beq hkp
      subst hkp'
      refine ⟨by omega, ?_⟩
      show pkgOf (g.heap ++ [⟨k, path, []⟩]) g.heap.length = k
      unfold pkgOf
      rw [List.get?_concat_length]
    · rw [if_neg hkp] at hk
      rcases hmap k i hk with ⟨hi, hp⟩
      refine ⟨by omega, ?_⟩
      show pkgOf (g.heap ++ [⟨pkg, path, []⟩]) i = k
      rw [pkgOf_append_lt hi]
      exact hp
  · intro i h
    refine hac i ?_
    have := @edgeRel_append_empty g.heap ⟨pkg, path, []⟩ rfl
    exact (Relation.TransGen.mono fun a b hab => (this a b).1 hab) h

/-! Outcome equations and inversion for AddDependency. -/

theorem addDep_unknown_from {g : DependencyGraph} {fr toPkg : String}
    (h : lookupId g fr = none) :
    AddDependency g fr toPkg = (g, some ("Package not found: " ++ fr)) := by
  simp only [AddDependency, h]

theorem addDep_unknown_to {g : DependencyGraph} {fr toPkg : String} {fid : Nat}
    (h1 : lookupId g fr = some fid) (h2 : lookupId g toPkg = none) :
    AddDependency g fr toPkg = (g, some ("Package not found: " ++ toPkg)) := by
  simp only [AddDependency, h1, h2]

theorem addDep_cycle {g : DependencyGraph} {fr toPkg : String} {fid tid : Nat}
    (h1 : lookupId g fr = some fid) (h2 : lookupId g toPkg = some tid)
    (h3 : isRecursivelyDependentOn g.heap tid fr = true) :
    AddDependency g fr toPkg =
      (g, some ("Circular dependency between " ++ fr ++ " and " ++ toPkg)) := by
  simp only [AddDependency, h1, h2, h3, if_true]

theorem addDep_success {g : DependencyGraph} {fr toPkg : String} {fid tid : Nat}
    (h1 : lookupId g fr = some fid) (h2 : lookupId g toPkg = some tid)
    (h3 : isRecursivelyDependentOn g.heap tid fr = false) :
    AddDependency g fr toPkg =
      ({ g with heap := pushBackDep g.heap fid tid }, none) := by
  simp only [AddDependency, h1, h2, h3, Bool.false_eq_true, if_false]

theorem addDep_inv {g g' : DependencyGraph} {fr toPkg : String}
    {e : Option String} (hstep : AddDependency g fr toPkg = (g', e)) :
    (g' = g ∧ ∃ msg, e = some msg) ∨
    (∃ fid tid, lookupId g fr = some fid ∧ lookupId g toPkg = some tid ∧
      isRecursivelyDependentOn g.heap tid fr = false ∧
      g' = { g with heap := pushBackDep g.heap fid tid } ∧ e = none) := by
  unfold AddDependency at hstep
  split at hstep
  · injection hstep with h1 h2
    exact Or.inl ⟨h1.symm, _, h2.symm⟩
  next fid hfr =>
    split at hstep
    · injection hstep with h1 h2
      exact Or.inl ⟨h1.symm, _, h2.symm⟩
    next tid hto =>
      split at hstep
      next hrec =>
        injection hstep with h1 h2
        exact Or.inl ⟨h1.symm, _, h2.symm⟩
      next hrec =>
        injection hstep with h1 h2
        exact Or.inr ⟨fid, tid, hfr, hto,
          Bool.not_eq_true _ ▸ hrec, h1.symm, h2.symm⟩

theorem invariant_addDep {g g' : DependencyGraph} {fr toPkg : String}
    {e : Option String} (hg : Invariant g)
    (hstep : AddDependency g fr toPkg = (g', e)) : Invariant g' := by
  obtain ⟨hwf, hmap, hac⟩ := hg
  rcases addDep_inv hstep with ⟨rfl, _⟩ | ⟨fid, tid, hfr, hto, hrec, rfl, _⟩
  · exact ⟨hwf, hmap, hac⟩
  · rcases hmap fr fid hfr with ⟨hfid, hfpkg⟩
    rcases hmap toPkg tid hto with ⟨htid, _⟩
    have hget : g.heap.get? fid = some (g.heap.get ⟨fid, hfid⟩) :=
      List.get?_eq_get hfid
    have hE := edgeRel_pushBackDep hget tid
    have hnr : ¬ Reach g.heap tid fid := by
      intro hre
      have := (isRec_iff hwf hac htid).2 ⟨fid, hre, hfpkg⟩
      rw [hrec] at this
      cases this
    have hlen := length_pushBackDep g.heap fid tid
    refine ⟨?_, ?_, ?_⟩
    · intro n hn d hd
      show d < (pushBackDep g.heap fid tid).length
      rw [hlen]
      unfold pushBackDep at hn
      rw [hget] at hn
      rcases List.mem_or_eq_of_mem_set hn with h | h
      · exact hwf n h d hd
      · subst h
        simp only [List.mem_append, List.mem_singleton] at hd
        rcases hd with h | h
        · exact hwf _ (List.get?_mem hget) d h
        · subst h; exact htid
    · intro k i hk
      have hk' : lookupId g k = some i := hk
      rcases hmap k i hk' with ⟨hi, hp⟩
      refine ⟨by simpa [hlen] using hi, ?_⟩
      show pkgOf (pushBackDep g.heap fid tid) i = k
      rw [pkgOf_pushBackDep]
      exact hp
    · exact acyclic_insert hE hac hnr

/-- Every API-produced graph satisfies the inductive invariant. -/
theorem reachable_invariant {g : DependencyGraph} (h : Reachable g) :
    Invariant g := by
  induction h with
  | init => exact invariant_new
  | addFile pkg path _ ih => exact invariant_addFile ih pkg path
  | addDep fr toPkg e _ hstep ih => exact invariant_addDep ih hstep

/-! ## Structure of the closure traversal -/

/-- Every element of l is a live pointer. -/
abbrev ValidL (heap : Heap) (l : List Nat) : Prop := ∀ x ∈ l, x < heap.length

/-- All nodes carry pairwise distinct paths. -/
abbrev PathsNodup (heap : Heap) : Prop := (heap.map Node.path).Nodup

/-- All nodes carry pairwise distinct package names. -/
abbrev PkgsNodup (heap : Heap) : Prop := (heap.map Node.pkg).Nodup

/-- Dependency-first: wherever the list is split at an element, that
element's direct dependencies all occur in the part before it. -/
def PostClosed (heap : Heap) (l : List Nat) : Prop :=
  ∀ l₁ i l₂, l = l₁ ++ i :: l₂ → ∀ d ∈ depsOf heap i, d ∈ l₁

theorem pathOf_get? {heap : Heap} {i : Nat} {n : Node}
    (h : heap.get? i = some n) : pathOf heap i = n.path := by
  unfold pathOf; rw [h]

theorem pkgOf_get? {heap : Heap} {i : Nat} {n : Node}
    (h : heap.get? i = some n) : pkgOf heap i = n.pkg := by
  unfold pkgOf; rw [h]

theorem path_inj {heap : Heap} (hpn : PathsNodup heap) {i j : Nat}
    (hi : i < heap.length) (hj : j < heap.length)
    (hp : pathOf heap i = pathOf heap j) : i = j := by
  have e1 : heap.get? i = some (heap.get ⟨i, hi⟩) := List.get?_eq_get hi
  have e2 : heap.get? j = some (heap.get ⟨j, hj⟩) := List.get?_eq_get hj
  have hmi : (heap.map Node.path).get? i = some (pathOf heap i) := by
    rw [List.get?_map, e1, pathOf_get? e1]; rfl
  have hmj : (heap.map Node.path).get? j = some (pathOf heap j) := by
    rw [List.get?_map, e2, pathOf_get? e2]; rfl
  have hi' : i < (heap.map Node.path).length := by simpa using hi
  exact List.get?_inj hi' hpn (by rw [hmi, hmj, hp])

theorem pkg_inj {heap : Heap} (hpn : PkgsNodup heap) {i j : Nat}
    (hi : i < heap.length) (hj : j < heap.length)
    (hp : pkgOf heap i = pkgOf heap j) : i = j := by
  have e1 : heap.get? i = some (heap.get ⟨i, hi⟩) := List.get?_eq_get hi
  have e2 : heap.get? j = some (heap.get ⟨j, hj⟩) := List.get?_eq_get hj
  have hmi : (heap.map Node.pkg).get? i = some (pkgOf heap i) := by
    rw [List.get?_map, e1, pkgOf_get? e1]; rfl
  have hmj : (heap.map Node.pkg).get? j = some (pkgOf heap j) := by
    rw [List.get?_map, e2, pkgOf_get? e2]; rfl
  have hi' : i < (heap.map Node.pkg).length := by simpa using hi
  exact List.get?_inj hi' hpn (by rw [hmi, hmj, hp])

theorem contains_of_mem {heap : Heap} {l : List Nat} {x : Nat} (h : x ∈ l) :
    contains heap l x = true := by
  unfold contains
  rw [List.any_eq_true]
  exact ⟨x, h, by simp⟩

theorem exists_of_contains {heap : Heap} {l : List Nat} {x : Nat}
    (h : contains heap l x = true) :
    ∃ j ∈ l, pathOf heap j = pathOf heap x := by
  unfold contains at h
  rcases List.any_eq_true.1 h with ⟨j, hj, hbeq⟩
  exact ⟨j, hj, eq_of_beq hbeq⟩

theorem mem_of_contains {heap : Heap} {l : List Nat} {x : Nat}
    (hpn : PathsNodup heap) (hv : ValidL heap l) (hx : x < heap.length)
    (h : contains heap l x = true) : x ∈ l := by
  rcases exists_of_contains h with ⟨j, hj, hp⟩
  rcases path_inj hpn (hv j hj) hx hp with rfl
  exact hj

theorem not_mem_of_not_contains {heap : Heap} {l : List Nat} {x : Nat}
    (h : contains heap l x = false) : x ∉ l := fun hm => by
  rw [contains_of_mem hm] at h
  cases h

theorem copyNew_basic {heap : Heap} :
    ∀ (l acc : List Nat), acc.Nodup →
      ∃ e2, copyNew heap acc l = acc ++ e2 ∧ (∀ x ∈ e2, x ∈ l) ∧
        (acc ++ e2).Nodup := by
  intro l
  induction l with
  | nil =>
    intro acc h
    exact ⟨[], by simp [copyNew], by simp, by simpa⟩
  | cons d l' ih =>
    intro acc hnd
    rw [copyNew]
    by_cases hc : contains heap acc d = true
    · rw [if_pos hc]
      rcases ih acc hnd with ⟨e2, heq, hmem, hnd2⟩
      exact ⟨e2, heq, fun x hx => List.mem_cons_of_mem d (hmem x hx), hnd2⟩
    · rw [if_neg hc]
      have hcf : contains heap acc d = false := by simpa using hc
      have hdn : d ∉ acc := not_mem_of_not_contains hcf
      have hnd' : (acc ++ [d]).Nodup := by
        refine List.Nodup.append hnd (List.nodup_singleton d) ?_
        intro a ha hb
        rcases List.mem_singleton.1 hb with rfl
        exact hdn ha
      rcases ih (acc ++ [d]) hnd' with ⟨e2, heq, hmem, hnd2⟩
      refine ⟨d :: e2, by simpa [List.append_assoc] using heq, ?_, ?_⟩
      · intro x hx
        rcases List.mem_cons.1 hx with rfl | hx'
        · exact List.mem_cons_self x l'
        · exact List.mem_cons_of_mem d (hmem x hx')
      · simpa [List.append_assoc] using hnd2

/-- Unfolding equations for the traversal, as rewrite rules. -/
theorem getAux_zero (heap : Heap) (nodes deps : List Nat) :
    getDependenciesAux heap 0 nodes deps = deps := rfl

theorem getAux_nil (heap : Heap) (fuel : Nat) (deps : List Nat) :
    getDependenciesAux heap (fuel + 1) [] deps = deps := rfl

theorem getAux_cons (heap : Heap) (fuel : Nat) (i : Nat) (rest deps : List Nat) :
    getDependenciesAux heap (fuel + 1) (i :: rest) deps =
      if contains heap deps i then getDependenciesAux heap (fuel + 1) rest deps
      else getDependenciesAux heap (fuel + 1) rest
        (depLoop heap (getDependenciesAux heap fuel) (depsOf heap i) deps
          ++ [i]) := rfl

theorem depLoop_nil (heap : Heap) (next : List Nat → List Nat → List Nat)
    (deps : List Nat) : depLoop heap next [] deps = deps := rfl

theorem depLoop_cons (heap : Heap) (next : List Nat → List Nat → List Nat)
    (e : Nat) (es deps : List Nat) :
    depLoop heap next (e :: es) deps =
      depLoop heap next es (copyNew heap deps (next [e] deps)) := rfl

/-- Basic shape facts about getDependenciesAux at a given fuel. -/
def GDB (heap : Heap) (fuel : Nat) : Prop :=
  ∀ nodes deps, ValidL heap nodes → ValidL heap deps → deps.Nodup →
    ∃ ext, getDependenciesAux heap fuel nodes deps = deps ++ ext ∧
      ValidL heap ext ∧ (deps ++ ext).Nodup ∧
      (∀ y ∈ ext, ∃ x ∈ nodes, Reach heap x y)

/-- Basic shape facts about depLoop at a given fuel. -/
def DLB (heap : Heap) (fuel : Nat) : Prop :=
  ∀ es deps, ValidL heap es → ValidL heap deps → deps.Nodup →
    ∃ ext, depLoop heap (getDependenciesAux heap fuel) es deps = deps ++ ext ∧
      ValidL heap ext ∧ (deps ++ ext).Nodup ∧
      (∀ y ∈ ext, ∃ x ∈ es, Reach heap x y)

theorem gdb_zero (heap : Heap) : GDB heap 0 := by
  intro nodes deps _ hvd hnd
  exact ⟨[], (by rw [getAux_zero, List.append_nil]), (by intro x hx; cases hx),
    (by simpa), (by intro y hy; cases hy)⟩

theorem dlb_of_gdb {heap : Heap} {fuel : Nat} (hg : GDB heap fuel) :
    DLB heap fuel := by
  intro es
  induction es with
  | nil =>
    intro deps _ hvd hnd
    exact ⟨[], (by rw [depLoop_nil, List.append_nil]), (by intro x hx; cases hx),
      (by simpa), (by intro y hy; cases hy)⟩
  | cons e es ih =>
    intro deps hve hvd hnd
    rw [depLoop_cons]
    have hve1 : ValidL heap [e] := by
      intro x hx
      rcases List.mem_singleton.1 hx with rfl
      exact hve x (List.mem_cons_self x es)
    rcases hg [e] deps hve1 hvd hnd with ⟨ext, heq, hvext, hnd2, hreach⟩
    rcases copyNew_basic (getDependenciesAux heap fuel [e] deps) deps hnd with
      ⟨e2, hceq, hsub, hnd3⟩
    have hdisj : ∀ y ∈ e2, y ∉ deps := by
      intro y hy
      exact fun hyd =>
        (List.disjoint_of_nodup_append hnd3) hyd hy
    have he2ext : ∀ y ∈ e2, y ∈ ext := by
      intro y hy
      have : y ∈ deps ++ ext := by rw [← heq]; exact hsub y hy
      rcases List.mem_append.1 this with h | h
      · exact absurd h (hdisj y hy)
      · exact h
    have hvacc : ValidL heap (deps ++ e2) := by
      intro x hx
      rcases List.mem_append.1 hx with h | h
      · exact hvd x h
      · exact hvext x (he2ext x h)
    rcases ih (deps ++ e2) (fun x hx => hve x (List.mem_cons_of_mem e hx))
        hvacc hnd3 with ⟨ext2, heq2, hvext2, hnd4, hreach2⟩
    refine ⟨e2 ++ ext2, ?_, ?_, ?_, ?_⟩
    · rw [hceq, heq2, List.append_assoc]
    · intro x hx
      rcases List.mem_append.1 hx with h | h
      · exact hvacc x (List.mem_append.2 (Or.inr h))
      · exact hvext2 x h
    · rw [← List.append_assoc]
      exact hnd4
    · intro y hy
      rcases List.mem_append.1 hy with h | h
      · rcases hreach y (he2ext y h) with ⟨x, hx, hr⟩
        rcases List.mem_singleton.1 hx with rfl
        exact ⟨x, List.mem_cons_self x es, hr⟩
      · rcases hreach2 y h with ⟨x, hx, hr⟩
        exact ⟨x, List.mem_cons_of_mem e hx, hr⟩

theorem gdb_succ {heap : Heap} (hwf : WFHeap heap) (hac : Acyclic heap)
    {fuel : Nat} (hdl : DLB heap fuel) : GDB heap (fuel + 1) := by
  intro nodes
  induction nodes with
  | nil =>
    intro deps _ hvd hnd
    exact ⟨[], (by rw [getAux_nil, List.append_nil]), (by intro x hx; cases hx),
      (by simpa), (by intro y hy; cases hy)⟩
  | cons i rest ih =>
    intro deps hvn hvd hnd
    have hi : i < heap.length := hvn i (List.mem_cons_self i rest)
    have hvrest : ValidL heap rest := fun x hx => hvn x (List.mem_cons_of_mem i hx)
    rw [getAux_cons]
    by_cases hc : contains heap deps i = true
    · rw [if_pos hc]
      rcases ih deps hvrest hvd hnd with ⟨ext, heq, hv, hnd2, hr⟩
      exact ⟨ext, heq, hv, hnd2, fun y hy =>
        (hr y hy).imp fun x hx => ⟨List.mem_cons_of_mem i hx.1, hx.2⟩⟩
    · rw [if_neg hc]
      rcases hdl (depsOf heap i) deps (depsOf_sub hwf i) hvd hnd with
        ⟨ext1, heq1, hv1, hnd1, hr1⟩
      have hinotin : i ∉ deps ++ ext1 := by
        intro hmem
        rcases List.mem_append.1 hmem with h | h
        · exact hc (contains_of_mem h)
        · rcases hr1 i h with ⟨e, he, hre⟩
          exact hac i (Relation.TransGen.head' ⟨hi, he⟩ hre)
      have hnd3 : ((deps ++ ext1) ++ [i]).Nodup := by
        refine List.Nodup.append hnd1 (List.nodup_singleton i) ?_
        intro a ha hb
        rcases List.mem_singleton.1 hb with rfl
        exact hinotin ha
      have hv3 : ValidL heap ((deps ++ ext1) ++ [i]) := by
        intro x hx
        rcases List.mem_append.1 hx with h | h
        · rcases List.mem_append.1 h with h' | h'
          · exact hvd x h'
          · exact hv1 x h'
        · rcases List.mem_singleton.1 h with rfl
          exact hi
      rcases ih ((depLoop heap (getDependenciesAux heap fuel) (depsOf heap i) deps) ++ [i])
          hvrest (by rw [heq1]; exact hv3) (by rw [heq1]; exact hnd3) with
        ⟨ext2, heq2, hv2, hnd4, hr2⟩
      refine ⟨ext1 ++ i :: ext2, ?_, ?_, ?_, ?_⟩
      · rw [heq2, heq1]
        simp [List.append_assoc]
      · intro x hx
        rcases List.mem_append.1 hx with h | h
        · exact hv1 x h
        · rcases List.mem_cons.1 h with rfl | h'
          · exact hi
          · exact hv2 x h'
      · have := hnd4
        rw [heq1] at this
        simpa [List.append_assoc] using this
      · intro y hy
        rcases List.mem_append.1 hy with h | h
        · rcases hr1 y h with ⟨e, he, hre⟩
          exact ⟨i, List.mem_cons_self i rest,
            Relation.ReflTransGen.head ⟨hi, he⟩ hre⟩
        · rcases List.mem_cons.1 h with rfl | h'
          · exact ⟨y, List.mem_cons_self y rest, Relation.ReflTransGen.refl⟩
          · rcases hr2 y h' with ⟨x, hx, hr⟩
            exact ⟨x, List.mem_cons_of_mem i hx, hr⟩

/-- The basic shape facts hold at every fuel on well-formed acyclic heaps. -/
theorem gdb_all {heap : Heap} (hwf : WFHeap heap) (hac : Acyclic heap) :
    ∀ fuel, GDB heap fuel := by
  intro fuel
  induction fuel with
  | zero => exact gdb_zero heap
  | succ fuel ih => exact gdb_succ hwf hac (dlb_of_gdb ih)

theorem dlb_all {heap : Heap} (hwf : WFHeap heap) (hac : Acyclic heap) :
    ∀ fuel, DLB heap fuel := fun fuel => dlb_of_gdb (gdb_all hwf hac fuel)

/-! ## Postorder structure of the closure traversal -/

theorem postClosed_append {heap : Heap} {l : List Nat} {i : Nat}
    (h : PostClosed heap l) (hd : ∀ d ∈ depsOf heap i, d ∈ l) :
    PostClosed heap (l ++ [i]) := by
  intro l₁ j l₂ heq d hdep
  rcases List.eq_nil_or_concat l₂ with rfl | ⟨l₂', a, rfl⟩
  · have hlen : l.length = l₁.length := by
      have := congrArg List.length heq
      simp at this
      omega
    rcases List.append_inj heq hlen with ⟨rfl, hji⟩
    have : i = j := by
      injection hji
    subst this
    exact hd d hdep
  · have heq' : l ++ [i] = (l₁ ++ j :: l₂') ++ [a] := by
      simpa using heq
    have hlen : l.length = (l₁ ++ j :: l₂').length := by
      have := congrArg List.length heq'
      simp at this
      simp
      omega
    rcases List.append_inj heq' hlen with ⟨h1, _⟩
    exact h l₁ j l₂' h1 d hdep

theorem copyNew_append_split (heap : Heap) :
    ∀ (l₁ l₂ acc : List Nat),
      copyNew heap acc (l₁ ++ l₂) = copyNew heap (copyNew heap acc l₁) l₂ := by
  intro l₁
  induction l₁ with
  | nil => intro l₂ acc; rw [List.nil_append, copyNew]
  | cons d l' ih =>
    intro l₂ acc
    rw [List.cons_append, copyNew, copyNew, ih]

theorem copyNew_skip {heap : Heap} :
    ∀ (l acc : List Nat), (∀ d ∈ l, contains heap acc d = true) →
      copyNew heap acc l = acc := by
  intro l
  induction l with
  | nil => intro acc _; rw [copyNew]
  | cons d l' ih =>
    intro acc h
    rw [copyNew, if_pos (h d (List.mem_cons_self d l'))]
    exact ih acc fun x hx => h x (List.mem_cons_of_mem d hx)

theorem copyNew_fresh {heap : Heap} (hpn : PathsNodup heap) :
    ∀ (ext acc : List Nat), ValidL heap (acc ++ ext) → (acc ++ ext).Nodup →
      copyNew heap acc ext = acc ++ ext := by
  intro ext
  induction ext with
  | nil => intro acc _ _; rw [copyNew, List.append_nil]
  | cons d ext' ih =>
    intro acc hv hnd
    have hd_lt : d < heap.length :=
      hv d (List.mem_append.2 (Or.inr (List.mem_cons_self d ext')))
    have hdn : d ∉ acc := by
      intro hmem
      exact (List.disjoint_of_nodup_append hnd) hmem (List.mem_cons_self d ext')
    have hc : ¬ contains heap acc d = true := by
      intro hc
      exact hdn (mem_of_contains hpn
        (fun x hx => hv x (List.mem_append.2 (Or.inl hx))) hd_lt hc)
    rw [copyNew, if_neg hc]
    have hperm : acc ++ d :: ext' = (acc ++ [d]) ++ ext' := by simp
    have := ih (acc ++ [d]) (by rw [← hperm]; exact hv) (by rw [← hperm]; exact hnd)
    rw [this, hperm]

/-- When the recursive result extends the accumulator with fresh distinct
nodes (as it always does on API states), the copy loop is the identity onto
the recursive result. -/
theorem copyNew_extension {heap : Heap} (hpn : PathsNodup heap)
    {deps ext : List Nat} (hv : ValidL heap (deps ++ ext))
    (hnd : (deps ++ ext).Nodup) :
    copyNew heap deps (deps ++ ext) = deps ++ ext := by
  rw [copyNew_append_split, copyNew_skip deps deps
    (fun d hd => contains_of_mem hd), copyNew_fresh hpn ext deps hv hnd]

/-- Postorder facts about getDependenciesAux at a given fuel. -/
def GDP (heap : Heap) (fuel : Nat) : Prop :=
  ∀ nodes deps, (∀ x ∈ nodes, Bounded heap x fuel) → ValidL heap deps →
    deps.Nodup → PostClosed heap deps →
    PostClosed heap (getDependenciesAux heap fuel nodes deps) ∧
    ∀ x ∈ nodes, x ∈ getDependenciesAux heap fuel nodes deps

/-- Postorder facts about depLoop at a given fuel. -/
def DLP (heap : Heap) (fuel : Nat) : Prop :=
  ∀ es deps, (∀ e ∈ es, Bounded heap e fuel) → ValidL heap deps →
    deps.Nodup → PostClosed heap deps →
    PostClosed heap (depLoop heap (getDependenciesAux heap fuel) es deps) ∧
    ∀ e ∈ es, e ∈ depLoop heap (getDependenciesAux heap fuel) es deps

theorem gdp_zero (heap : Heap) : GDP heap 0 := by
  intro nodes deps hb _ _ hpc
  cases nodes with
  | nil =>
    rw [getAux_zero]
    exact ⟨hpc, by intro x hx; cases hx⟩
  | cons i rest =>
    have := (hb i (List.mem_cons_self i rest)).pos
    omega

theorem dlp_of_gdp {heap : Heap} (hwf : WFHeap heap) (hac : Acyclic heap)
    (hpn : PathsNodup heap) {fuel : Nat} (hg : GDP heap fuel) :
    DLP heap fuel := by
  intro es
  induction es with
  | nil =>
    intro deps _ _ _ hpc
    rw [depLoop_nil]
    exact ⟨hpc, by intro x hx; cases hx⟩
  | cons e es ih =>
    intro deps hbe hvd hnd hpc
    rw [depLoop_cons]
    have hbe1 : Bounded heap e fuel := hbe e (List.mem_cons_self e es)
    have hve1 : ValidL heap [e] := by
      intro x hx
      rcases List.mem_singleton.1 hx with rfl
      exact hbe1.lt
    rcases gdb_all hwf hac fuel [e] deps hve1 hvd hnd with
      ⟨ext, heq, hvext, hnd2, _⟩
    rcases hg [e] deps (by
        intro x hx
        rcases List.mem_singleton.1 hx with rfl
        exact hbe1) hvd hnd hpc with ⟨hpc2, hmem2⟩
    have hveDeps : ValidL heap (getDependenciesAux heap fuel [e] deps) := by
      rw [heq]
      intro x hx
      rcases List.mem_append.1 hx with h | h
      · exact hvd x h
      · exact hvext x h
    have hndeDeps : (getDependenciesAux heap fuel [e] deps).Nodup := by
      rw [heq]; exact hnd2
    have hcn : copyNew heap deps (getDependenciesAux heap fuel [e] deps) =
        getDependenciesAux heap fuel [e] deps := by
      rw [heq]
      exact copyNew_extension hpn (heq ▸ hveDeps) (heq ▸ hndeDeps)
    rw [hcn]
    rcases ih (getDependenciesAux heap fuel [e] deps)
        (fun x hx => hbe x (List.mem_cons_of_mem e hx)) hveDeps hndeDeps hpc2 with
      ⟨hpc3, hmem3⟩
    refine ⟨hpc3, ?_⟩
    intro x hx
    rcases List.mem_cons.1 hx with rfl | hx'
    · have he : x ∈ getDependenciesAux heap fuel [x] deps :=
        hmem2 x (List.mem_singleton.2 rfl)
      rcases dlb_all hwf hac fuel es (getDependenciesAux heap fuel [x] deps)
          (fun y hy => (hbe y (List.mem_cons_of_mem x hy)).lt) hveDeps hndeDeps with
        ⟨ext2, heq2, _, _, _⟩
      rw [heq2]
      exact List.mem_append.2 (Or.inl he)
    · exact hmem3 x hx'

theorem gdp_succ {heap : Heap} (hwf : WFHeap heap) (hac : Acyclic heap)
    (hpn : PathsNodup heap) {fuel : Nat} (hdl : DLP heap fuel) :
    GDP heap (fuel + 1) := by
  intro nodes
  induction nodes with
  | nil =>
    intro deps _ _ _ hpc
    rw [getAux_nil]
    exact ⟨hpc, by intro x hx; cases hx⟩
  | cons i rest ih =>
    intro deps hb hvd hnd hpc
    have hbi : Bounded heap i (fuel + 1) := hb i (List.mem_cons_self i rest)
    have hi : i < heap.length := hbi.lt
    have hbrest : ∀ x ∈ rest, Bounded heap x (fuel + 1) :=
      fun x hx => hb x (List.mem_cons_of_mem i hx)
    have hvrest : ValidL heap rest := fun x hx => (hbrest x hx).lt
    rw [getAux_cons]
    by_cases hc : contains heap deps i = true
    · rw [if_pos hc]
      have hideps : i ∈ deps := mem_of_contains hpn hvd hi hc
      rcases ih deps hbrest hvd hnd hpc with ⟨hpc2, hmem2⟩
      refine ⟨hpc2, ?_⟩
      intro x hx
      rcases List.mem_cons.1 hx with rfl | hx'
      · rcases gdb_all hwf hac (fuel + 1) rest deps hvrest hvd hnd with
          ⟨ext, heq, _, _, _⟩
        rw [heq]
        exact List.mem_append.2 (Or.inl hideps)
      · exact hmem2 x hx'
    · rw [if_neg hc]
      have hbch : ∀ d ∈ depsOf heap i, Bounded heap d fuel := by
        cases hbi with
        | mk h1 h2 => exact h2
      rcases hdl (depsOf heap i) deps hbch hvd hnd hpc with ⟨hpc2, hsub2⟩
      rcases dlb_all hwf hac fuel (depsOf heap i) deps (depsOf_sub hwf i)
          hvd hnd with ⟨ext1, heq1, hv1, hnd1, hr1⟩
      have hinotin : i ∉ depLoop heap (getDependenciesAux heap fuel) (depsOf heap i) deps := by
        rw [heq1]
        intro hmem
        rcases List.mem_append.1 hmem with h | h
        · exact hc (contains_of_mem h)
        · rcases hr1 i h with ⟨e, he, hre⟩
          exact hac i (Relation.TransGen.head' ⟨hi, he⟩ hre)
      have hnd3 : (depLoop heap (getDependenciesAux heap fuel) (depsOf heap i) deps ++ [i]).Nodup := by
        refine List.Nodup.append (heq1 ▸ hnd1) (List.nodup_singleton i) ?_
        intro a ha hbmem
        rcases List.mem_singleton.1 hbmem with rfl
        exact hinotin ha
      have hv3 : ValidL heap (depLoop heap (getDependenciesAux heap fuel) (depsOf heap i) deps ++ [i]) := by
        intro x hx
        rcases List.mem_append.1 hx with h | h
        · rw [heq1] at h
          rcases List.mem_append.1 h with h' | h'
          · exact hvd x h'
          · exact hv1 x h'
        · rcases List.mem_singleton.1 h with rfl
          exact hi
      have hpc3 : PostClosed heap (depLoop heap (getDependenciesAux heap fuel) (depsOf heap i) deps ++ [i]) :=
        postClosed_append hpc2 hsub2
      rcases ih (depLoop heap (getDependenciesAux heap fuel) (depsOf heap i) deps ++ [i])
          hbrest hv3 hnd3 hpc3 with ⟨hpc4, hmem4⟩
      refine ⟨hpc4, ?_⟩
      intro x hx
      rcases List.mem_cons.1 hx with rfl | hx'
      · rcases gdb_all hwf hac (fuel + 1) rest
            (depLoop heap (getDependenciesAux heap fuel) (depsOf heap x) deps ++ [x]) hvrest hv3 hnd3 with
          ⟨ext2, heq2, _, _, _⟩
        rw [heq2]
        exact List.mem_append.2 (Or.inl
          (List.mem_append.2 (Or.inr (List.mem_singleton.2 rfl))))
      · exact hmem4 x hx'

/-- The postorder facts hold at every fuel on well-formed acyclic heaps with
pairwise distinct paths. -/
theorem gdp_all {heap : Heap} (hwf : WFHeap heap) (hac : Acyclic heap)
    (hpn : PathsNodup heap) : ∀ fuel, GDP heap fuel := by
  intro fuel
  induction fuel with
  | zero => exact gdp_zero heap
  | succ fuel ih => exact gdp_succ hwf hac hpn (dlp_of_gdp hwf hac hpn ih)

/-! ## Concrete example graphs (built through the API) -/

/-- The spec's chain scenario, after the three registrations. -/
def exChain0 : DependencyGraph :=
  AddFile (AddFile (AddFile New "pkg1" "file1") "pkg2" "file2") "pkg3" "file3"

def exChain1 : DependencyGraph := (AddDependency exChain0 "pkg1" "pkg2").1

def exChain2 : DependencyGraph := (AddDependency exChain1 "pkg2" "pkg3").1

/-- The spec's chain scenario, fully built: edges pkg1→pkg2, pkg2→pkg3,
pkg1→pkg3. -/
def exChain3 : DependencyGraph := (AddDependency exChain2 "pkg1" "pkg3").1

/-- Two packages registered with the same backing path plus an entry x
depending on both. -/
def exShared : DependencyGraph :=
  (AddDependency ((AddDependency
    (AddFile (AddFile (AddFile New "a" "p") "b" "p") "x" "q")
    "x" "a").1) "x" "b").1

/-- c depends on a; then a is re-registered and c adds a dependency on the
new a as well, so two distinct nodes named a sit in c's closure. -/
def exRereg : DependencyGraph :=
  (AddDependency (AddFile
    ((AddDependency (AddFile (AddFile New "a" "p1") "c" "pc") "c" "a").1)
    "a" "p2") "c" "a").1

/-- a→b, c→a: the state just before a is re-registered. -/
def exRereg2pre : DependencyGraph :=
  (AddDependency (AddFile
    ((AddDependency (AddFile (AddFile New "a" "pa") "b" "pb") "a" "b").1)
    "c" "pc") "c" "a").1

/-- a→b, c→a; then a is re-registered (fresh node, path pa2). -/
def exRereg2 : DependencyGraph := AddFile exRereg2pre "a" "pa2"

/-- Diamond: a→b, a→c, b→d, c→d, plus an isolated e. -/
def exDiamond : DependencyGraph :=
  (AddDependency ((AddDependency ((AddDependency ((AddDependency
    (AddFile (AddFile (AddFile (AddFile (AddFile New
      "a" "fa") "b" "fb") "c" "fc") "d" "fd") "e" "fe")
    "a" "b").1) "a" "c").1) "b" "d").1) "c" "d").1

/-- Just two registered packages a and b. -/
def exTwo : DependencyGraph := AddFile (AddFile New "a" "pa") "b" "pb"

/-- Any AddDependency call, successful or not, preserves reachability of the
resulting state. -/
theorem reachable_step {g : DependencyGraph} (h : Reachable g)
    (fr toPkg : String) : Reachable (AddDependency g fr toPkg).1 :=
  Reachable.addDep fr toPkg (AddDependency g fr toPkg).2 h rfl

theorem reachable_exChain3 : Reachable exChain3 := by
  have h0 : Reachable exChain0 :=
    Reachable.addFile _ _ (Reachable.addFile _ _
      (Reachable.addFile _ _ Reachable.init))
  exact reachable_step (reachable_step (reachable_step h0 _ _) _ _) _ _

theorem reachable_exShared : Reachable exShared := by
  have h0 : Reachable (AddFile (AddFile (AddFile New "a" "p") "b" "p") "x" "q") :=
    Reachable.addFile _ _ (Reachable.addFile _ _
      (Reachable.addFile _ _ Reachable.init))
  exact reachable_step (reachable_step h0 _ _) _ _

theorem reachable_exRereg : Reachable exRereg := by
  have h0 : Reachable (AddFile (AddFile New "a" "p1") "c" "pc") :=
    Reachable.addFile _ _ (Reachable.addFile _ _ Reachable.init)
  exact reachable_step (Reachable.addFile _ _ (reachable_step h0 _ _)) _ _

theorem reachable_exRereg2 : Reachable exRereg2 := by
  have h0 : Reachable (AddFile (AddFile New "a" "pa") "b" "pb") :=
    Reachable.addFile _ _ (Reachable.addFile _ _ Reachable.init)
  exact Reachable.addFile _ _
    (reachable_step (Reachable.addFile _ _ (reachable_step h0 _ _)) _ _)

theorem reachable_exDiamond : Reachable exDiamond := by
  have h0 : Reachable (AddFile (AddFile (AddFile (AddFile (AddFile New
      "a" "fa") "b" "fb") "c" "fc") "d" "fd") "e" "fe") :=
    Reachable.addFile _ _ (Reachable.addFile _ _ (Reachable.addFile _ _
      (Reachable.addFile _ _ (Reachable.addFile _ _ Reachable.init))))
  exact reachable_step (reachable_step (reachable_step
    (reachable_step h0 _ _) _ _) _ _) _ _

theorem reachable_exTwo : Reachable exTwo :=
  Reachable.addFile _ _ (Reachable.addFile _ _ Reachable.init)

/-! ## The claims -/

/-- C1: For every sequence of AddFile/RegisterFile and AddDependency calls in
which only the successful AddDependency calls add edges, the resulting edge
set is acyclic: no node lies on a nonempty pointer cycle (so no package is
ever transitively dependent on itself) in any queryable state. -/
theorem c1_acyclic_invariant {g : DependencyGraph} (h : Reachable g) :
    Acyclic g.heap :=
  (reachable_invariant h).2.2

/-- Witness for C1 at the chain example state. -/
theorem c1_acyclic_invariant_witness :
    Reachable exChain3 ∧ Acyclic exChain3.heap :=
  ⟨reachable_exChain3, c1_acyclic_invariant reachable_exChain3⟩

/-- C3: With both endpoints registered, AddDependency fails with the
CycleDetected error (leaving the graph untouched) exactly when the target
node's closure already holds a node named fr — to transitively reaches from,
the to = from case included via the reflexive closure; otherwise the call
succeeds and appends the new edge at the end of from's dependency list. -/
theorem c3_cycle_iff {g : DependencyGraph} {fr toPkg : String} {fid tid : Nat}
    (hg : Reachable g) (hfr : lookupId g fr = some fid)
    (hto : lookupId g toPkg = some tid) :
    ((AddDependency g fr toPkg =
        (g, some ("Circular dependency between " ++ fr ++ " and " ++ toPkg)))
      ↔ reachesPackage g.heap tid fr) ∧
    (¬ reachesPackage g.heap tid fr → ∃ n, g.heap.get? fid = some n ∧
      AddDependency g fr toPkg =
        ({ g with heap := g.heap.set fid { n with deps := n.deps ++ [tid] } },
          none)) := by
  obtain ⟨hwf, hmap, hac⟩ := reachable_invariant hg
  rcases hmap toPkg tid hto with ⟨htid, _⟩
  rcases hmap fr fid hfr with ⟨hfid, _⟩
  have hget : g.heap.get? fid = some (g.heap.get ⟨fid, hfid⟩) :=
    List.get?_eq_get hfid
  have hpush : pushBackDep g.heap fid tid =
      g.heap.set fid { g.heap.get ⟨fid, hfid⟩ with
        deps := (g.heap.get ⟨fid, hfid⟩).deps ++ [tid] } := by
    unfold pushBackDep
    rw [hget]
  constructor
  · constructor
    · intro heqn
      by_cases hrec : isRecursivelyDependentOn g.heap tid fr = true
      · exact (isRec_iff hwf hac htid).1 hrec
      · have hrec' : isRecursivelyDependentOn g.heap tid fr = false := by
          simpa using hrec
        have := addDep_success hfr hto hrec'
        rw [this] at heqn
        injection heqn with _ h2
        cases h2
    · intro hre
      exact addDep_cycle hfr hto ((isRec_iff hwf hac htid).2 hre)
  · intro hre
    have hrec' : isRecursivelyDependentOn g.heap tid fr = false := by
      rcases Bool.eq_false_or_eq_true (isRecursivelyDependentOn g.heap tid fr)
        with h | h
      · exact absurd ((isRec_iff hwf hac htid).1 h) hre
      · exact h
    refine ⟨g.heap.get ⟨fid, hfid⟩, hget, ?_⟩
    rw [addDep_success hfr hto hrec', hpush]

/-- Witness for C3 at the chain example: the rejected pkg3→pkg2 edge. -/
theorem c3_cycle_iff_witness :
    Reachable exChain3 ∧ lookupId exChain3 "pkg3" = some 2 ∧
    lookupId exChain3 "pkg2" = some 1 ∧
    AddDependency exChain3 "pkg3" "pkg2" =
      (exChain3, some "Circular dependency between pkg3 and pkg2") := by
  refine ⟨reachable_exChain3, by decide, by decide, ?_⟩
  exact (@c3_cycle_iff exChain3 "pkg3" "pkg2" 2 1 reachable_exChain3
      (by decide) (by decide)).1.2
    ⟨2, Relation.ReflTransGen.single ⟨by decide, by decide⟩, by decide⟩

/-- C4: Every AddDependency call that returns an error leaves the graph
exactly as it was, so all subsequent queries are unchanged. -/
theorem c4_failed_addDependency_atomic {g g' : DependencyGraph}
    {fr toPkg msg : String}
    (hstep : AddDependency g fr toPkg = (g', some msg)) :
    g' = g ∧ (∀ entry, GetDependencies g' entry = GetDependencies g entry) ∧
    (∀ p, GetDependenciesOfPackage g' p = GetDependenciesOfPackage g p) := by
  rcases addDep_inv hstep with ⟨rfl, _⟩ | ⟨fid, tid, _, _, _, _, he⟩
  · exact ⟨rfl, fun _ => rfl, fun _ => rfl⟩
  · cases he

/-- Witness for C4 at the rejected pkg4→pkg3 call of the chain example. -/
theorem c4_failed_addDependency_atomic_witness :
    AddDependency exChain3 "pkg4" "pkg3" =
      (exChain3, some "Package not found: pkg4") ∧
    exChain3 = exChain3 ∧
    (∀ entry, GetDependencies exChain3 entry = GetDependencies exChain3 entry) ∧
    (∀ p, GetDependenciesOfPackage exChain3 p =
      GetDependenciesOfPackage exChain3 p) :=
  ⟨by decide, @c4_failed_addDependency_atomic exChain3 exChain3
    "pkg4" "pkg3" "Package not found: pkg4" (by decide)⟩

/-- C10: For every registered package p, AddDependency(p, p) fails with the
CycleDetected error naming p twice, and the graph is left unchanged. -/
theorem c10_self_edge {g : DependencyGraph} {p : String} {i : Nat}
    (hg : Reachable g) (hp : lookupId g p = some i) :
    AddDependency g p p =
      (g, some ("Circular dependency between " ++ p ++ " and " ++ p)) := by
  obtain ⟨hwf, hmap, hac⟩ := reachable_invariant hg
  rcases hmap p i hp with ⟨hi, hpk⟩
  exact addDep_cycle hp hp
    ((isRec_iff hwf hac hi).2 ⟨i, Relation.ReflTransGen.refl, hpk⟩)

/-- Witness for C10 at package a of the two-package example. -/
theorem c10_self_edge_witness :
    Reachable exTwo ∧ lookupId exTwo "a" = some 0 ∧
    AddDependency exTwo "a" "a" =
      (exTwo, some "Circular dependency between a and a") :=
  ⟨reachable_exTwo, by decide,
    @c10_self_edge exTwo "a" 0 reachable_exTwo (by decide)⟩

theorem postClosed_nil (heap : Heap) : PostClosed heap [] := by
  intro l₁ i l₂ heq d _
  have := heq.symm
  simp at this

/-- C2 counterexample: two packages registered with the same path.  In
exShared, x's dependency list is [0, 1] (nodes a and b, both with path p),
but the closure of x is [0, 2]: node 2 (x itself) appears in the result
while its direct dependency 1 (package b) appears nowhere, so b is not at
any earlier position.  The claim fails as stated for this API-built graph
and entry list. -/
theorem c2_counterexample :
    Reachable exShared ∧
    GetDependenciesOfPackage exShared "x" = [0, 2] ∧
    lookupId exShared "x" = some 2 ∧
    depsOf exShared.heap 2 = [0, 1] ∧
    1 ∉ GetDependenciesOfPackage exShared "x" :=
  ⟨reachable_exShared, by decide, by decide, by decide, by decide⟩

/-- C2 amended: on every API-reachable graph whose nodes carry pairwise
distinct paths, every node appearing in a GetDependencies result has each of
its direct dependencies at a strictly earlier position; the traversal is
depth-first in stored insertion order and each node is emitted only after
its dependencies. -/
theorem c2_dependency_first {g : DependencyGraph} (hg : Reachable g)
    (hpn : PathsNodup g.heap) {entry : List Nat} (hv : ValidL g.heap entry) :
    ∀ l₁ n l₂, GetDependencies g entry = l₁ ++ n :: l₂ →
      ∀ d ∈ depsOf g.heap n, d ∈ l₁ := by
  obtain ⟨hwf, hmap, hac⟩ := reachable_invariant hg
  have hb : ∀ x ∈ entry, Bounded g.heap x (g.heap.length + 1) :=
    fun x hx => boundedOfAcyclic hwf hac (hv x hx)
  have h := (gdp_all hwf hac hpn (g.heap.length + 1) entry [] hb
    (by intro x hx; cases hx) List.nodup_nil (postClosed_nil g.heap)).1
  intro l₁ n l₂ heq d hd
  exact h l₁ n l₂ heq d hd

/-- Witness for C2 at the chain example: the closure of pkg1 is [2, 1, 0]
and the direct dependencies of node 0 (pkg1) occur earlier. -/
theorem c2_dependency_first_witness :
    Reachable exChain3 ∧ PathsNodup exChain3.heap ∧
    ValidL exChain3.heap [0] ∧
    GetDependencies exChain3 [0] = [2, 1] ++ 0 :: [] ∧
    (∀ d ∈ depsOf exChain3.heap 0, d ∈ [2, 1]) :=
  ⟨reachable_exChain3, by decide, by decide, by decide,
    @c2_dependency_first exChain3 reachable_exChain3 (by decide) [0]
      (by decide) [2, 1] 0 [] (by decide)⟩

/-- C5 counterexample: after re-registering a, the closure of c holds two
distinct nodes both named a, so the package name a appears twice in the
GetDependencies result of this API-built graph. -/
theorem c5_counterexample :
    Reachable exRereg ∧
    (GetDependenciesOfPackage exRereg "c").map (pkgOf exRereg.heap) =
      ["a", "a", "c"] ∧
    ¬ ((GetDependenciesOfPackage exRereg "c").map (pkgOf exRereg.heap)).Nodup :=
  ⟨reachable_exRereg, by decide, by decide⟩

/-- C5 amended: on every API-reachable graph the result never holds the
same node twice, whatever the names and paths; when moreover all nodes
carry pairwise distinct package names (no name was registered twice), each
package name appears at most once in the result. -/
theorem c5_dedup {g : DependencyGraph} (hg : Reachable g)
    {entry : List Nat} (hv : ValidL g.heap entry) :
    (GetDependencies g entry).Nodup ∧
    (PkgsNodup g.heap →
      ((GetDependencies g entry).map (pkgOf g.heap)).Nodup) := by
  obtain ⟨hwf, hmap, hac⟩ := reachable_invariant hg
  rcases gdb_all hwf hac (g.heap.length + 1) entry [] hv
      (by intro x hx; cases hx) List.nodup_nil with ⟨ext, heq, hvext, hnd, _⟩
  have heq' : GetDependencies g entry = ext := by
    show getDependenciesAux g.heap (g.heap.length + 1) entry [] = ext
    rw [heq]
    exact List.nil_append ext
  rw [heq']
  have hndext : ext.Nodup := by simpa using hnd
  refine ⟨hndext, fun hpk => List.Nodup.map_on ?_ hndext⟩
  intro x hx y hy hxy
  exact pkg_inj hpk (hvext x hx) (hvext y hy) hxy

/-- Witness for C5 at the re-registration graph itself, where two distinct
nodes share the name a: the node-level conjunct applies there
unconditionally (entry 1 is the node for c). -/
theorem c5_dedup_witness :
    Reachable exRereg ∧ ValidL exRereg.heap [1] ∧
    ((GetDependencies exRereg [1]).Nodup ∧
      (PkgsNodup exRereg.heap →
        ((GetDependencies exRereg [1]).map (pkgOf exRereg.heap)).Nodup)) :=
  ⟨reachable_exRereg, by decide,
    @c5_dedup exRereg reachable_exRereg [1] (by decide)⟩

/-- C6: the spec's chain scenario end to end: the three edge insertions
succeed, pkg3→pkg2 is rejected as a cycle, pkg4→pkg3 is rejected as
unknown, both rejections leave the graph unchanged, and the three closures
come out dependency-first exactly as the spec lists them. -/
theorem c6_chain_scenario :
    (AddDependency exChain0 "pkg1" "pkg2").2 = none ∧
    (AddDependency exChain1 "pkg2" "pkg3").2 = none ∧
    (AddDependency exChain2 "pkg1" "pkg3").2 = none ∧
    AddDependency exChain3 "pkg3" "pkg2" =
      (exChain3, some "Circular dependency between pkg3 and pkg2") ∧
    AddDependency exChain3 "pkg4" "pkg3" =
      (exChain3, some "Package not found: pkg4") ∧
    (GetDependenciesOfPackage exChain3 "pkg1").map (pkgOf exChain3.heap) =
      ["pkg3", "pkg2", "pkg1"] ∧
    (GetDependenciesOfPackage exChain3 "pkg2").map (pkgOf exChain3.heap) =
      ["pkg3", "pkg2"] ∧
    (GetDependenciesOfPackage exChain3 "pkg3").map (pkgOf exChain3.heap) =
      ["pkg3"] := by
  refine ⟨by decide, by decide, by decide, by decide, by decide, by decide,
    by decide, by decide⟩

/-- C7 counterexample: in exRereg2 the node for c still references the old
node 0 for a (path pa, with its edge to b), not the new edge-free node 3
(path pa2): the closure of c is [1, 0, 2], contains old a with b, and does
not contain the new node, so the transitive closure of a dependent does not
reflect the new node. -/
theorem c7_counterexample :
    Reachable exRereg2 ∧
    lookupId exRereg2 "a" = some 3 ∧
    depsOf exRereg2.heap 3 = [] ∧
    GetDependenciesOfPackage exRereg2 "c" = [1, 0, 2] ∧
    pkgOf exRereg2.heap 0 = "a" ∧
    pathOf exRereg2.heap 0 = "pa" ∧
    depsOf exRereg2.heap 0 = [1] ∧
    3 ∉ GetDependenciesOfPackage exRereg2 "c" :=
  ⟨reachable_exRereg2, by decide, by decide, by decide, by decide, by decide,
    by decide, by decide⟩

/-- C7 amended: re-registering a name appends a fresh edge-free node for the
new path and redirects name lookup to it, but every pre-existing heap cell —
including every node that previously added a dependency edge to the old node
— is left untouched, so such nodes keep referencing the old node (with its
outgoing edges) and their transitive closure still reflects the old node,
not the new one. -/
theorem c7_reregistration {g : DependencyGraph} (name path : String) :
    (AddFile g name path).heap = g.heap ++ [⟨name, path, []⟩] ∧
    lookupId (AddFile g name path) name = some g.heap.length ∧
    depsOf (AddFile g name path).heap g.heap.length = [] ∧
    ∀ i, i < g.heap.length →
      (AddFile g name path).heap.get? i = g.heap.get? i := by
  refine ⟨rfl, ?_, ?_, ?_⟩
  · unfold lookupId AddFile
    simp [List.lookup]
  · show depsOf (g.heap ++ [Node.mk name path []]) g.heap.length = []
    unfold depsOf
    rw [List.get?_concat_length]
  · intro i hi
    show (g.heap ++ [Node.mk name path []]).get? i = g.heap.get? i
    exact List.get?_append hi

/-- Witness for C7 at the re-registration of a in exRereg2pre. -/
theorem c7_reregistration_witness :
    ((AddFile exRereg2pre "a" "pa2").heap =
      exRereg2pre.heap ++ [⟨"a", "pa2", []⟩] ∧
    lookupId (AddFile exRereg2pre "a" "pa2") "a" =
      some exRereg2pre.heap.length ∧
    depsOf (AddFile exRereg2pre "a" "pa2").heap exRereg2pre.heap.length = []) ∧
    (AddFile exRereg2pre "a" "pa2").heap.get? 2 = exRereg2pre.heap.get? 2 := by
  have h := @c7_reregistration exRereg2pre "a" "pa2"
  exact ⟨⟨h.1, h.2.1, h.2.2.1⟩, h.2.2.2 2 (by decide)⟩

/-- C8: in the diamond a→b, a→c, b→d, c→d the cycle check run by
AddDependency e→a (a DFS from a for the name e) enters node 3 (package d)
twice — visit sequence [0, 1, 3, 2, 3] — because the checked cache never
prunes anything: containsPkg tests the target name, which is never stored,
and the Go append to the by-value slice never escapes the frame.  The spec's
required design visits each package at most once per check. -/
theorem c8_cache_never_prunes :
    Reachable exDiamond ∧
    (isRecursivelyDependentOnTrace exDiamond.heap "e"
      (exDiamond.heap.length + 1) [] 0).2 = [0, 1, 3, 2, 3] ∧
    (isRecursivelyDependentOnTrace exDiamond.heap "e"
      (exDiamond.heap.length + 1) [] 0).2.count 3 = 2 ∧
    (isRecursivelyDependentOnTrace exDiamond.heap "e"
      (exDiamond.heap.length + 1) [] 0).1 =
      isRecursivelyDependentOn exDiamond.heap 0 "e" ∧
    (AddDependency exDiamond "e" "a").2 = none :=
  ⟨reachable_exDiamond, by decide, by decide, by decide, by decide⟩

/-- C9 counterexample: with a and b registered and x unregistered, the two
distinct attempted edges x→a and x→b produce the very same error value, so
an UnknownPackage error does not identify the two package names involved. -/
theorem c9_counterexample :
    Reachable exTwo ∧ "a" ≠ "b" ∧
    AddDependency exTwo "x" "a" = (exTwo, some "Package not found: x") ∧
    AddDependency exTwo "x" "b" = (exTwo, some "Package not found: x") :=
  ⟨reachable_exTwo, by decide, by decide, by decide⟩

/-- C9 amended: a CycleDetected error names both packages of the attempted
edge; an UnknownPackage error names only the missing package (the from
endpoint if it is unregistered, otherwise the to endpoint). -/
theorem c9_error_context (g : DependencyGraph) (fr toPkg : String) :
    (lookupId g fr = none →
      AddDependency g fr toPkg = (g, some ("Package not found: " ++ fr))) ∧
    (∀ fid, lookupId g fr = some fid → lookupId g toPkg = none →
      AddDependency g fr toPkg = (g, some ("Package not found: " ++ toPkg))) ∧
    (∀ fid tid, lookupId g fr = some fid → lookupId g toPkg = some tid →
      isRecursivelyDependentOn g.heap tid fr = true →
      AddDependency g fr toPkg =
        (g, some ("Circular dependency between " ++ fr ++ " and " ++ toPkg))) := by
  refine ⟨?_, ?_, ?_⟩
  · intro h
    exact addDep_unknown_from h
  · intro fid h1 h2
    exact addDep_unknown_to h1 h2
  · intro fid tid h1 h2 h3
    exact addDep_cycle h1 h2 h3

/-- Witness for C9: the three error shapes at concrete calls on exTwo. -/
theorem c9_error_context_witness :
    AddDependency exTwo "x" "a" = (exTwo, some "Package not found: x") ∧
    AddDependency exTwo "a" "x" = (exTwo, some "Package not found: x") ∧
    AddDependency exTwo "a" "a" =
      (exTwo, some "Circular dependency between a and a") :=
  ⟨(c9_error_context exTwo "x" "a").1 (by decide),
    (c9_error_context exTwo "a" "x").2.1 0 (by decide) (by decide),
    (c9_error_context exTwo "a" "a").2.2 0 0 (by decide) (by decide) (by decide)⟩

end Depgraph
